import Mathlib

/-!
# Verification of the ruby-environments workspace resolution and activation protocol

This file gives a shallow embedding of the core logic of the `ruby-environments`
VS Code extension:

* the wire codec: the Ruby probe script `activation.rb` (encoder) and
  `RubyEnvironment.parseActivationResult` (decoder) that marshal a Ruby
  installation's version, gem paths, JIT flags and environment over stderr,
  delimited by the fixed separator strings;
* the per-workspace resolver `RubyEnvironment` (`getRubyPath`,
  `getRubyDefinitionFromConfig`, `updateRubyDefinition`, `selectRuby`);
* the registry `RubyEnvironmentManager` (`activateWorkspace`,
  `createEnvironment`) and `WorkspaceContext.getStorageKey`.

Strings are modelled as `List Char`; JavaScript `String.prototype.split`,
the greedy frame regexp, `Object.fromEntries` and string truthiness are
modelled explicitly.  A JavaScript exception is modelled by `Option`
(`none` = the call threw); a caught exception is a `none` consumed by the
caller's `try`/`catch` model.
-/

set_option maxRecDepth 20000

/-- Strings of the wire protocol, modelled as lists of characters. -/
abbrev Str := List Char

namespace RubyEnv

/-- The frame delimiter `RUBY_ENVIRONMENTS_ACTIVATION_SEPARATOR`. -/
def ACTIVATION_SEPARATOR : Str := "RUBY_ENVIRONMENTS_ACTIVATION_SEPARATOR".data

/-- The key/value delimiter `RUBY_ENVIRONMENTS_VS`. -/
def VALUE_SEPARATOR : Str := "RUBY_ENVIRONMENTS_VS".data

/-- The field delimiter `RUBY_ENVIRONMENTS_FS`. -/
def FIELD_SEPARATOR : Str := "RUBY_ENVIRONMENTS_FS".data

/-- Structural worker for `splitOnL`: the fuel argument bounds the length of
the string argument, and the recursion is structural on the fuel, so the
kernel can reduce applications (a well-founded definition would not). -/
def splitOnFuel (sep : Str) : Nat → Str → List Str
  | _, [] => [[]]
  | 0, c :: rest => [c :: rest]
  | fuel + 1, c :: rest =>
    if sep ≠ [] ∧ sep <+: (c :: rest) then
      [] :: splitOnFuel sep fuel ((c :: rest).drop sep.length)
    else
      match splitOnFuel sep fuel rest with
      | [] => [[c]]
      | part :: parts => (c :: part) :: parts

/-- JavaScript `String.prototype.split` with a non-empty string separator:
scan left to right, cutting at every (non-overlapping) occurrence of `sep`.
`splitOnL sep [] = [[]]`, like `"".split(sep) = [""]`. -/
def splitOnL (sep s : Str) : List Str :=
  splitOnFuel sep s.length s

/-- `Array.prototype.join` / Ruby `Array#join` with separator `sep`. -/
def intercalateL (sep : Str) : List Str → Str
  | [] => []
  | [p] => p
  | p :: q :: ps => p ++ sep ++ intercalateL sep (q :: ps)

/-- A word is border-free when no proper non-empty prefix of it is also a
suffix; the field and key/value delimiters are border-free, which rules out
occurrences straddling a boundary when the word is pasted between values. -/
def BorderFree (sep : Str) : Prop :=
  ∀ k < sep.length, 0 < k → sep.take k ≠ sep.drop (sep.length - k)

instance (sep : Str) : Decidable (BorderFree sep) :=
  Nat.decidableBallLT sep.length _

/-- All positions at which `sep` occurs in `s` (overlapping occurrences
included), in increasing order; this is what the backtracking regexp engine
can see. -/
def occPositions (sep s : Str) : List Nat :=
  (List.range (s.length + 1)).filter (fun i => decide (sep <+: s.drop i))

/-- The greedy frame-matching regexp `SEP([^]*)SEP` applied to `s`: a match
starts at the first occurrence of `sep` and closes at the last occurrence,
provided the closing occurrence starts no earlier than the end of the opening
one; it captures everything in between. -/
def extractFrame (sep s : Str) : Option Str :=
  match (occPositions sep s).head?, (occPositions sep s).getLast? with
  | some p, some q =>
    if p + sep.length ≤ q then
      some ((s.drop (p + sep.length)).take (q - (p + sep.length)))
    else none
  | some _, none => none
  | none, _ => none

/-- `s` contains two non-overlapping occurrences of `sep`, with arbitrary
noise before, between and after them. -/
def TwoOcc (sep s : Str) : Prop :=
  ∃ a b c, s = a ++ sep ++ b ++ sep ++ c

/-- The closed enumeration of JIT capability tags (`JitType` in `types.ts`). -/
inductive JitType where
  | YJIT : JitType
  | ZJIT : JitType
deriving DecidableEq, Repr

/-- `RubyDefinition` from `types.ts`: either the error variant (no further
data) or a successfully activated environment.  The `env` field keeps the
entry list handed to `Object.fromEntries`; a `none` value is a JavaScript
`undefined` (an entry whose text had no key/value delimiter). -/
inductive RubyDefinition where
  | error : RubyDefinition
  | environment (rubyVersion : Str) (availableJITs : List JitType)
      (env : List (Str × Option Str)) (gemPath : List Str) : RubyDefinition
deriving DecidableEq, Repr

/-- One environment entry as consumed by `Object.fromEntries`:
`entry.split(VALUE_SEPARATOR)` and then components `0` (the key) and `1`
(the value, `undefined` when the entry contains no delimiter). -/
def parseEnvEntry (entry : Str) : Str × Option Str :=
  ((splitOnL VALUE_SEPARATOR entry).headD [], (splitOnL VALUE_SEPARATOR entry)[1]?)

/-- `const [version, gemPath, yjit, ...envEntries] = content.split(FIELD_SEPARATOR)`
followed by the construction of the success value.  With fewer than two
fields `gemPath` is `undefined` and `gemPath.split(",")` throws a
`TypeError`, modelled by `none`.  (A split result is never empty; the `[]`
case is unreachable.) -/
def parseFields : List Str → Option RubyDefinition
  | [] => none
  | [_] => none
  | version :: gemPath :: rest =>
    some (.environment version
      (if (rest.headD []).isEmpty then [] else [JitType.YJIT])
      ((rest.drop 1).map parseEnvEntry)
      (splitOnL [','] gemPath))

/-- `RubyEnvironment.parseActivationResult` (`extension.ts`): run the greedy
frame regexp over the captured stderr; no match yields the error variant,
otherwise the frame content is split on the field delimiter and the
definition is assembled.  `none` models a thrown exception. -/
def parseActivationResult (stderr : Str) : Option RubyDefinition :=
  match extractFrame ACTIVATION_SEPARATOR stderr with
  | none => some .error
  | some content => parseFields (splitOnL FIELD_SEPARATOR content)

/-- Ruby's `!!defined?(...)` booleans as they appear once interpolated into
the joined field list: `"true"` or `"false"`, never an empty string. -/
def rubyBoolStr (b : Bool) : Str :=
  if b then "true".data else "false".data

/-- The probe script `activation.rb`: each environment entry is
`key VALUE_SEPARATOR value`; the list is prefixed by the version, the
comma-joined gem paths, the YJIT flag and the ZJIT flag, joined with the
field delimiter, and framed by the activation separator on stderr. -/
def encodeActivation (version : Str) (gemPaths : List Str) (yjit zjit : Bool)
    (env : List (Str × Str)) : Str :=
  ACTIVATION_SEPARATOR ++
    intercalateL FIELD_SEPARATOR
      ([version, intercalateL [','] gemPaths, rubyBoolStr yjit, rubyBoolStr zjit] ++
        env.map (fun kv => kv.1 ++ VALUE_SEPARATOR ++ kv.2)) ++
    ACTIVATION_SEPARATOR

/-- Reading key `k` back from `Object.fromEntries entries`: the key is
present iff some entry carries it, and the stored value is that of the last
such entry (later entries overwrite earlier ones). -/
def objLookup (entries : List (Str × Option Str)) (k : Str) : Option (Option Str) :=
  ((entries.filter (fun e => e.1 == k)).getLast?).map Prod.snd

/-- `WorkspaceContext` (`workspaceContext.ts`): the registry key (a folder
URI string, or the sentinel for the synthetic default context) and the
default flag. -/
structure WorkspaceContext where
  key : String
  isDefault : Bool
deriving DecidableEq, Repr

/-- Contexts produced by the two smart constructors: `fromWorkspaceFolder`
yields a non-default context keyed by the folder URI, `createDefault` the
default context with the sentinel key. -/
def WorkspaceContext.Constructible (w : WorkspaceContext) : Prop :=
  w.isDefault = true → w.key = "__default__"

/-- `WorkspaceContext.getStorageKey`: the fixed store key for the default
context, the prefixed context key otherwise. -/
def WorkspaceContext.getStorageKey (w : WorkspaceContext) : String :=
  if w.isDefault then "rubyPath" else "rubyPath:" ++ w.key

/-- JavaScript truthiness of a `string | undefined` value: `undefined` and
the empty string are falsy. -/
def jsTruthy : Option String → Bool
  | none => false
  | some s => !s.isEmpty

/-- JavaScript `a || b` on `string | undefined` values. -/
def jsOr (a b : Option String) : Option String :=
  if jsTruthy a then a else b

/-- Outcome of `asyncExec` for one command: the invocation may throw (spawn
failure, executable not found, abnormal exit) or yield captured stderr. -/
inductive ExecOutcome where
  | thrown : ExecOutcome
  | captured (stderr : Str) : ExecOutcome
deriving DecidableEq

/-- The ambient state a resolver reads: the extension's `workspaceState`
key-value store, the `rubyEnvironments.rubyPath` setting per workspace
scope, and the probe subprocess behaviour per executable path. -/
structure ResolveEnv where
  workspaceState : String → Option String
  rubyPathConfig : WorkspaceContext → Option String
  exec : String → ExecOutcome

/-- `RubyEnvironment.getRubyPath`: the per-workspace manual override from
`workspaceState` first, falling back (JavaScript `||`) to the configured
`rubyEnvironments.rubyPath`; there is no further default. -/
def getRubyPath (env : ResolveEnv) (w : WorkspaceContext) : Option String :=
  jsOr (env.workspaceState w.getStorageKey) (env.rubyPathConfig w)

/-- The body of the `try` block of `getRubyDefinitionFromConfig`: run the
probe and parse its stderr; `Except.error ()` is a thrown exception (spawn
failure, or the parse `TypeError`). -/
def activationAttempt (env : ResolveEnv) (rubyPath : String) :
    Except Unit RubyDefinition :=
  match env.exec rubyPath with
  | .thrown => .error ()
  | .captured stderr =>
    match parseActivationResult stderr with
    | none => .error ()
    | some d => .ok d

/-- `getRubyDefinitionFromConfig`: `null` when no truthy path is configured;
otherwise the `try` body with every exception caught and converted to the
error variant. -/
def getRubyDefinitionFromConfig (env : ResolveEnv) (w : WorkspaceContext) :
    Option RubyDefinition :=
  match getRubyPath env w with
  | none => none
  | some rubyPath =>
    if rubyPath.isEmpty then none
    else
      match activationAttempt env rubyPath with
      | .error _ => some .error
      | .ok d => some d

/-- `RubyChangeEvent`: the owning workspace identity and the new definition;
`none` is the unresolved/absent state. -/
structure RubyChangeEvent where
  workspace : WorkspaceContext
  ruby : Option RubyDefinition
deriving DecidableEq

/-- `updateRubyDefinition`: recompute the definition, cache it, and fire
exactly one change event carrying it; returns the new cached definition and
the fired events. -/
def updateRubyDefinition (env : ResolveEnv) (w : WorkspaceContext) :
    Option RubyDefinition × List RubyChangeEvent :=
  let d := getRubyDefinitionFromConfig env w
  (d, [⟨w, d⟩])

/-- The `environments` map of `RubyEnvironmentManager`: for each key, `none`
when no resolver is registered, `some st` for a registered resolver whose
cached definition is `st`. -/
def Registry := String → Option (Option RubyDefinition)

/-- `RubyEnvironmentManager.activateWorkspace`: when a resolver exists for
the context's key nothing happens; otherwise `createEnvironment` registers a
new resolver and activates it, which resolves once and fires one event. -/
def activateWorkspace (env : ResolveEnv) (reg : Registry) (w : WorkspaceContext) :
    Registry × List RubyChangeEvent :=
  match reg w.key with
  | some _ => (reg, [])
  | none =>
    let r := updateRubyDefinition env w
    (fun k => if k = w.key then some r.1 else reg k, r.2)

/-- `RubyEnvironment.selectRuby` after the user chose `newPath`: store it
under this workspace's storage key and re-resolve this workspace's resolver.
Returns the updated ambient state, the updated registry and the events. -/
def selectRubyApply (env : ResolveEnv) (reg : Registry) (w : WorkspaceContext)
    (newPath : String) : ResolveEnv × Registry × List RubyChangeEvent :=
  let env' : ResolveEnv :=
    { env with
      workspaceState := fun k =>
        if k = w.getStorageKey then some newPath else env.workspaceState k }
  let r := updateRubyDefinition env' w
  (env', fun k => if k = w.key then some r.1 else reg k, r.2)

/-- The executable lookup of `ConfiguredRuby.activate`
(`config.get("rubyExecutablePath", "ruby")`): the general setting when
present, the bare command name `"ruby"` otherwise; this strategy has no
per-workspace override tier. -/
def configuredRubyExecutable (rubyExecutablePathConfig : Option String) : String :=
  rubyExecutablePathConfig.getD "ruby"

/-- The result of `splitOnFuel` only depends on the string once the fuel
bounds the string's length. -/
theorem splitOnFuel_fuel_eq (sep : Str) :
    ∀ (fuel₁ : Nat) (fuel₂ : Nat) (s : Str), s.length ≤ fuel₁ → s.length ≤ fuel₂ →
      splitOnFuel sep fuel₁ s = splitOnFuel sep fuel₂ s := by
  intro fuel₁
  induction fuel₁ with
  | zero =>
    intro fuel₂ s h1 _
    have : s = [] := List.eq_nil_of_length_eq_zero (by omega)
    subst this
    rcases fuel₂ with _ | f₂ <;> rfl
  | succ f₁ ih =>
    intro fuel₂ s h1 h2
    rcases s with _ | ⟨c, rest⟩
    · rcases fuel₂ with _ | f₂ <;> rfl
    · rcases fuel₂ with _ | f₂
      · simp at h2
      · simp only [splitOnFuel]
        by_cases hcond : sep ≠ [] ∧ sep <+: (c :: rest)
        · rw [if_pos hcond, if_pos hcond]
          have hposs : 0 < sep.length := List.length_pos.mpr hcond.1
          have hlen : ((c :: rest).drop sep.length).length ≤ f₁ := by
            simp only [List.length_drop, List.length_cons]
            simp only [List.length_cons] at h1
            omega
          have hlen2 : ((c :: rest).drop sep.length).length ≤ f₂ := by
            simp only [List.length_drop, List.length_cons]
            simp only [List.length_cons] at h2
            omega
          rw [ih f₂ _ hlen hlen2]
        · rw [if_neg hcond, if_neg hcond,
            ih f₂ rest (by simp only [List.length_cons] at h1; omega)
              (by simp only [List.length_cons] at h2; omega)]

/-- Defining equation of `splitOnL` when the separator starts the string. -/
theorem splitOnL_cut (sep : Str) (c : Char) (rest : Str) (hsep : sep ≠ [])
    (hpre : sep <+: (c :: rest)) :
    splitOnL sep (c :: rest) = [] :: splitOnL sep ((c :: rest).drop sep.length) := by
  have hposs : 0 < sep.length := List.length_pos.mpr hsep
  simp only [splitOnL, List.length_cons, splitOnFuel]
  rw [if_pos ⟨hsep, hpre⟩]
  congr 1
  apply splitOnFuel_fuel_eq
  · simp only [List.length_drop, List.length_cons]
    omega
  · exact le_refl _

/-- Defining equation of `splitOnL` when no cut happens at the head. -/
theorem splitOnL_skip (sep : Str) (c : Char) (rest : Str)
    (h : ¬(sep ≠ [] ∧ sep <+: (c :: rest))) :
    splitOnL sep (c :: rest) =
      match splitOnL sep rest with
      | [] => [[c]]
      | part :: parts => (c :: part) :: parts := by
  simp only [splitOnL, List.length_cons, splitOnFuel]
  rw [if_neg h]

theorem splitOnL_nil (sep : Str) : splitOnL sep [] = [[]] := rfl

theorem splitOnL_ne_nil (sep s : Str) : splitOnL sep s ≠ [] := by
  rcases s with _ | ⟨c, rest⟩
  · simp [splitOnL, splitOnFuel]
  · by_cases h : sep ≠ [] ∧ sep <+: (c :: rest)
    · rw [splitOnL_cut sep c rest h.1 h.2]
      simp
    · rw [splitOnL_skip sep c rest h]
      split <;> simp

theorem splitOnL_sep_append (sep t : Str) (hsep : sep ≠ []) :
    splitOnL sep (sep ++ t) = [] :: splitOnL sep t := by
  rcases sep with _ | ⟨c, s'⟩
  · exact absurd rfl hsep
  · rw [List.cons_append,
      splitOnL_cut _ _ _ hsep (by rw [← List.cons_append]; exact List.prefix_append _ _),
      ← List.cons_append, List.drop_left]

theorem splitOnL_eq_single (sep s : Str) (h : ¬ sep <:+: s) :
    splitOnL sep s = [s] := by
  induction s with
  | nil => rfl
  | cons c rest ih =>
    rw [splitOnL_skip sep c rest (by rintro ⟨-, hpre⟩; exact h hpre.isInfix),
      ih (fun hi => h (hi.trans (List.suffix_cons c rest).isInfix))]

/-- If `sep` is border-free and does not occur in the non-empty list `p`, then
`sep` cannot start `p ++ sep ++ t`: an occurrence starting inside `p` would
have to straddle the boundary, producing a border of `sep`. -/
theorem not_prefix_of_append_sep (sep p t : Str) (hbf : BorderFree sep)
    (hp : ¬ sep <:+: p) (hpne : p ≠ []) : ¬ sep <+: (p ++ (sep ++ t)) := by
  intro hpre
  by_cases hlen : sep.length ≤ p.length
  · exact hp (List.prefix_of_prefix_length_le hpre (List.prefix_append _ _) hlen).isInfix
  · push_neg at hlen
    have hk : 0 < p.length := List.length_pos.mpr hpne
    have heq : sep = p ++ sep.take (sep.length - p.length) := by
      have htake := List.prefix_iff_eq_take.mp hpre
      rw [List.take_append_eq_append_take, List.take_of_length_le (le_of_lt hlen),
        List.take_append_of_le_length (Nat.sub_le _ _)] at htake
      exact htake
    have hdrop : sep.drop p.length = sep.take (sep.length - p.length) := by
      conv_lhs => rw [heq]
      rw [List.drop_left]
    have hbord := hbf (sep.length - p.length) (by omega) (by omega)
    rw [show sep.length - (sep.length - p.length) = p.length by omega] at hbord
    exact hbord hdrop.symm

/-- Scanning `p ++ sep ++ t` cuts exactly at the pasted separator, provided
`sep` does not occur in `p` and is border-free. -/
theorem splitOnL_append (sep p t : Str) (hbf : BorderFree sep) (hsep : sep ≠ [])
    (hp : ¬ sep <:+: p) : splitOnL sep (p ++ sep ++ t) = p :: splitOnL sep t := by
  induction p with
  | nil => simpa using splitOnL_sep_append sep t hsep
  | cons c p' ih =>
    rw [List.append_assoc, List.cons_append,
      splitOnL_skip sep c (p' ++ (sep ++ t)) (by
        rintro ⟨-, hpre⟩
        exact not_prefix_of_append_sep sep (c :: p') t hbf hp (by simp) hpre),
      ← List.append_assoc,
      ih (fun hi => hp (hi.trans (List.suffix_cons c p').isInfix))]

/-- Splitting the joined parts recovers the parts, provided the separator is
border-free and occurs in none of the parts. -/
theorem splitOnL_intercalateL (sep : Str) (parts : List Str) (hbf : BorderFree sep)
    (hsep : sep ≠ []) (hne : parts ≠ [])
    (hparts : ∀ p ∈ parts, ¬ sep <:+: p) :
    splitOnL sep (intercalateL sep parts) = parts := by
  induction parts with
  | nil => exact absurd rfl hne
  | cons p ps ih =>
    rcases ps with _ | ⟨q, ps'⟩
    · exact splitOnL_eq_single sep p (hparts p (by simp))
    · rw [intercalateL, splitOnL_append sep p _ hbf hsep (hparts p (by simp)),
        ih (by simp) (fun r hr => hparts r (List.mem_cons_of_mem p hr))]

theorem mem_occPositions (sep s : Str) (i : ℕ) :
    i ∈ occPositions sep s ↔ i ≤ s.length ∧ sep <+: s.drop i := by
  simp [occPositions, List.mem_filter, List.mem_range, Nat.lt_succ_iff]

theorem occPositions_pairwise (sep s : Str) :
    (occPositions sep s).Pairwise (· < ·) :=
  (List.pairwise_lt_range _).filter _

theorem head?_le_of_pairwise {l : List ℕ} (hl : l.Pairwise (· < ·)) {p : ℕ}
    (hp : l.head? = some p) : ∀ r ∈ l, p ≤ r := by
  rcases l with _ | ⟨a, t⟩
  · simp at hp
  · simp only [List.head?_cons, Option.some.injEq] at hp
    subst hp
    intro r hr
    rcases List.mem_cons.mp hr with rfl | hrt
    · exact le_refl r
    · exact le_of_lt ((List.pairwise_cons.mp hl).1 r hrt)

theorem mem_of_head?_eq {α : Type} {l : List α} {p : α} (h : l.head? = some p) :
    p ∈ l := by
  rcases l with _ | ⟨a, t⟩
  · simp at h
  · simp only [List.head?_cons, Option.some.injEq] at h
    exact h ▸ List.mem_cons_self a t

theorem mem_of_getLast?_eq {α : Type} {l : List α} {q : α} (h : l.getLast? = some q) :
    q ∈ l := by
  induction l with
  | nil => simp at h
  | cons a t ih =>
    rcases t with _ | ⟨b, t'⟩
    · simp only [List.getLast?_singleton, Option.some.injEq] at h
      exact h ▸ List.mem_singleton_self a
    · rw [List.getLast?_cons_cons] at h
      exact List.mem_cons_of_mem a (ih h)

theorem le_getLast?_of_pairwise {l : List ℕ} (hl : l.Pairwise (· < ·)) {q : ℕ}
    (hq : l.getLast? = some q) : ∀ r ∈ l, r ≤ q := by
  induction l with
  | nil => simp
  | cons a t ih =>
    intro r hr
    rcases t with _ | ⟨b, t'⟩
    · simp only [List.getLast?_singleton, Option.some.injEq] at hq
      simp only [List.mem_singleton] at hr
      omega
    · rw [List.getLast?_cons_cons] at hq
      have htail := (List.pairwise_cons.mp hl).2
      rcases List.mem_cons.mp hr with rfl | hrt
      · have hqmem : q ∈ b :: t' := mem_of_getLast?_eq hq
        exact le_of_lt ((List.pairwise_cons.mp hl).1 q hqmem)
      · exact ih htail hq r hrt

theorem occPositions_head_of_prefix (sep s : Str) (h : sep <+: s) :
    (occPositions sep s).head? = some 0 := by
  rw [occPositions, List.range_succ_eq_map, List.filter_cons_of_pos (by simpa using h)]
  rfl

/-- The last element of a filtered range is the greatest position satisfying
the predicate. -/
theorem getLast?_filter_range (P : ℕ → Bool) (n m : ℕ) (hm : m < n)
    (hPm : P m = true) (hub : ∀ j, m < j → P j = false) :
    ((List.range n).filter P).getLast? = some m := by
  induction n with
  | zero => omega
  | succ n ih =>
    rw [List.range_succ, List.filter_append]
    rcases Nat.lt_or_ge m n with hlt | hge
    · have hPn : P n = false := hub n hlt
      simp only [List.filter_singleton, hPn, cond_false, List.append_nil]
      exact ih hlt
    · have hmn : m = n := by omega
      subst hmn
      simp only [List.filter_singleton, hPm, cond_true]
      exact List.getLast?_concat _

/-- Extracting from a perfectly framed payload recovers exactly the payload,
whatever the payload contains. -/
theorem extractFrame_encode (sep c : Str) (hsep : sep ≠ []) :
    extractFrame sep (sep ++ c ++ sep) = some c := by
  have hhead : (occPositions sep (sep ++ c ++ sep)).head? = some 0 :=
    occPositions_head_of_prefix _ _ (by rw [List.append_assoc]; exact List.prefix_append _ _)
  have hlast : (occPositions sep (sep ++ c ++ sep)).getLast? =
      some (sep.length + c.length) := by
    apply getLast?_filter_range
    · simp [List.length_append]
      omega
    · have hdrop : (sep ++ c ++ sep).drop (sep.length + c.length) = sep := by
        rw [← List.length_append sep c, List.drop_left]
      simp [hdrop]
    · intro j hj
      simp only [decide_eq_false_iff_not]
      intro hpre
      have hlen := hpre.length_le
      have hpos : 0 < sep.length := List.length_pos.mpr hsep
      simp only [List.length_drop, List.length_append] at hlen
      omega
  rw [extractFrame, hhead, hlast]
  dsimp only
  rw [if_pos (by omega)]
  have hdrop : (sep ++ c ++ sep).drop (0 + sep.length) = c ++ sep := by
    rw [Nat.zero_add, List.append_assoc, List.drop_left]
  rw [hdrop, show sep.length + c.length - (0 + sep.length) = c.length by omega,
    List.take_left]

theorem occ_of_decomp (sep a b c : Str) :
    a.length ∈ occPositions sep (a ++ sep ++ b ++ sep ++ c) ∧
    a.length + sep.length + b.length ∈ occPositions sep (a ++ sep ++ b ++ sep ++ c) := by
  constructor
  · rw [mem_occPositions]
    constructor
    · simp only [List.length_append]
      omega
    · rw [List.append_assoc, List.append_assoc, List.append_assoc, List.drop_left]
      exact List.prefix_append _ _
  · rw [mem_occPositions]
    refine ⟨by simp only [List.length_append]; omega, ?_⟩
    have hre : a ++ sep ++ b ++ sep ++ c = (a ++ sep ++ b) ++ (sep ++ c) := by
      simp [List.append_assoc]
    have hlen : (a ++ sep ++ b).length = a.length + sep.length + b.length := by
      simp only [List.length_append]
    rw [hre, ← hlen, List.drop_left]
    exact List.prefix_append _ _

theorem decomp_of_occ (sep s : Str) {p q : ℕ}
    (hp : p ∈ occPositions sep s) (hq : q ∈ occPositions sep s)
    (hpq : p + sep.length ≤ q) :
    s = s.take p ++ sep ++ (s.drop (p + sep.length)).take (q - (p + sep.length)) ++ sep
        ++ s.drop (q + sep.length) := by
  have h1 : s.drop p = sep ++ s.drop (p + sep.length) := by
    obtain ⟨r, hr⟩ := (mem_occPositions sep s p).mp hp |>.2
    have : (s.drop p).drop sep.length = r := by rw [← hr, List.drop_left]
    rw [List.drop_drop] at this
    rw [← hr, this]
  have h2 : s.drop q = sep ++ s.drop (q + sep.length) := by
    obtain ⟨r, hr⟩ := (mem_occPositions sep s q).mp hq |>.2
    have : (s.drop q).drop sep.length = r := by rw [← hr, List.drop_left]
    rw [List.drop_drop] at this
    rw [← hr, this]
  have h3 : s.drop (p + sep.length) =
      (s.drop (p + sep.length)).take (q - (p + sep.length)) ++ s.drop q := by
    conv_lhs => rw [← List.take_append_drop (q - (p + sep.length)) (s.drop (p + sep.length))]
    rw [List.drop_drop, show p + sep.length + (q - (p + sep.length)) = q from by omega]
  conv_lhs => rw [← List.take_append_drop p s, h1, h3, h2]
  simp [List.append_assoc]

/-- The frame regexp matches iff the input decomposes around two
non-overlapping occurrences of the delimiter. -/
theorem twoOcc_iff_isSome (sep s : Str) :
    TwoOcc sep s ↔ (extractFrame sep s).isSome := by
  constructor
  · rintro ⟨a, b, c, rfl⟩
    obtain ⟨h1, h2⟩ := occ_of_decomp sep a b c
    rcases hh : (occPositions sep (a ++ sep ++ b ++ sep ++ c)).head? with _ | p
    · rw [List.head?_eq_none_iff] at hh
      rw [hh] at h1
      simp at h1
    rcases hg : (occPositions sep (a ++ sep ++ b ++ sep ++ c)).getLast? with _ | q
    · rw [List.getLast?_eq_none_iff] at hg
      rw [hg] at h1
      simp at h1
    have hple := head?_le_of_pairwise (occPositions_pairwise sep _) hh _ h1
    have hqge := le_getLast?_of_pairwise (occPositions_pairwise sep _) hg _ h2
    rw [extractFrame, hh, hg]
    dsimp only
    rw [if_pos (by omega)]
    rfl
  · intro h
    rcases hh : (occPositions sep s).head? with _ | p <;>
      rcases hg : (occPositions sep s).getLast? with _ | q <;>
        rw [extractFrame, hh, hg] at h <;> dsimp only at h
    · simp at h
    · simp at h
    · simp at h
    by_cases hpq : p + sep.length ≤ q
    · have hdec := decomp_of_occ sep s (mem_of_head?_eq hh) (mem_of_getLast?_eq hg) hpq
      exact ⟨s.take p, (s.drop (p + sep.length)).take (q - (p + sep.length)),
        s.drop (q + sep.length), hdec⟩
    · rw [if_neg hpq] at h
      simp at h

theorem fieldSeparator_borderFree : BorderFree FIELD_SEPARATOR := by decide

theorem valueSeparator_borderFree : BorderFree VALUE_SEPARATOR := by decide

theorem fieldSeparator_ne_nil : FIELD_SEPARATOR ≠ [] := by decide

theorem activationSeparator_ne_nil : ACTIVATION_SEPARATOR ≠ [] := by decide

/-- Splitting a well-formed encoded environment entry recovers its key and
value. -/
theorem parseEnvEntry_encodes (k v : Str) (hk : ¬ VALUE_SEPARATOR <:+: k)
    (hv : ¬ VALUE_SEPARATOR <:+: v) :
    parseEnvEntry (k ++ VALUE_SEPARATOR ++ v) = (k, some v) := by
  rw [parseEnvEntry,
    splitOnL_append VALUE_SEPARATOR k v valueSeparator_borderFree (by decide) hk,
    splitOnL_eq_single VALUE_SEPARATOR v hv]
  rfl

/-- C3: `resolve()` on a resolver whose workspace has no manual-override path
stored and no configured `rubyPath` setting yields the absent state (`null`)
— which is distinct from the error variant — and fires exactly one change
event carrying that absent state and the owning workspace identity. -/
theorem resolve_unconfigured_yields_absent (env : ResolveEnv) (w : WorkspaceContext)
    (hstate : env.workspaceState w.getStorageKey = none)
    (hconfig : env.rubyPathConfig w = none) :
    updateRubyDefinition env w = (none, [⟨w, none⟩]) ∧
      (none : Option RubyDefinition) ≠ some RubyDefinition.error := by
  refine ⟨?_, by simp⟩
  simp [updateRubyDefinition, getRubyDefinitionFromConfig, getRubyPath, jsOr,
    jsTruthy, hstate, hconfig]

theorem resolve_unconfigured_yields_absent_witness :
    updateRubyDefinition ⟨fun _ => none, fun _ => none, fun _ => .thrown⟩
        ⟨"file:///w", false⟩ =
      (none, [⟨⟨"file:///w", false⟩, none⟩]) :=
  (resolve_unconfigured_yields_absent _ _ rfl rfl).1

/-- C4: every probe failure — a throwing subprocess invocation (spawn error
or abnormal exit) or an exception thrown while parsing the captured output —
is absorbed inside the resolver and converted to the error variant;
`updateRubyDefinition` always returns a value, caches the error variant, and
fires its single event with it, so no exception reaches the registry. -/
theorem probe_failures_absorbed (env : ResolveEnv) (w : WorkspaceContext)
    (path : String) (hpath : getRubyPath env w = some path)
    (htruthy : path.isEmpty = false)
    (hfail : env.exec path = .thrown ∨
      ∃ stderr, env.exec path = .captured stderr ∧ parseActivationResult stderr = none) :
    getRubyDefinitionFromConfig env w = some RubyDefinition.error ∧
      updateRubyDefinition env w =
        (some RubyDefinition.error, [⟨w, some RubyDefinition.error⟩]) := by
  have hattempt : activationAttempt env path = .error () := by
    rcases hfail with hthrow | ⟨stderr, hexec, hparse⟩
    · rw [activationAttempt, hthrow]
    · simp [activationAttempt, hexec, hparse]
  have hdef : getRubyDefinitionFromConfig env w = some RubyDefinition.error := by
    rw [getRubyDefinitionFromConfig, hpath]
    simp [htruthy, hattempt]
  exact ⟨hdef, by rw [updateRubyDefinition, hdef]⟩

theorem probe_failures_absorbed_witness :
    getRubyDefinitionFromConfig
        ⟨fun _ => some "/usr/bin/ruby", fun _ => none, fun _ => .thrown⟩
        ⟨"file:///w", false⟩ = some RubyDefinition.error :=
  (probe_failures_absorbed _ _ "/usr/bin/ruby" (by decide) (by decide) (Or.inl rfl)).1

/-- C6 counterexample: with no manual override stored and no `rubyPath`
setting configured, the resolver's executable lookup yields no path at all
rather than defaulting to the bare command name `"ruby"`; no single lookup
in the code has the claimed three tiers. -/
theorem getRubyPath_no_default_counterexample :
    getRubyPath ⟨fun _ => none, fun _ => none, fun _ => .thrown⟩ ⟨"file:///w", false⟩ =
        none ∧
      getRubyPath ⟨fun _ => none, fun _ => none, fun _ => .thrown⟩ ⟨"file:///w", false⟩ ≠
        some "ruby" := by
  constructor
  · rfl
  · intro h
    simp [getRubyPath, jsOr, jsTruthy] at h

/-- C6 amended: the resolver's lookup (`getRubyPath`) returns the truthy
per-workspace manual override first and otherwise the general `rubyPath`
setting, yielding no path when neither is set; the bare command default
`"ruby"` exists only in the separate `ConfiguredRuby` strategy, which reads
the general `rubyExecutablePath` setting and has no override tier. -/
theorem executable_path_lookup (env : ResolveEnv) (w : WorkspaceContext) :
    (jsTruthy (env.workspaceState w.getStorageKey) = true →
      getRubyPath env w = env.workspaceState w.getStorageKey) ∧
    (jsTruthy (env.workspaceState w.getStorageKey) = false →
      getRubyPath env w = env.rubyPathConfig w) ∧
    (∀ p : String, configuredRubyExecutable (some p) = p) ∧
    configuredRubyExecutable none = "ruby" := by
  refine ⟨fun h => ?_, fun h => ?_, fun p => rfl, rfl⟩ <;>
    simp [getRubyPath, jsOr, h]

theorem executable_path_lookup_witness :
    getRubyPath
        ⟨fun _ => some "/override/ruby", fun _ => some "/config/ruby", fun _ => .thrown⟩
        ⟨"file:///w", false⟩ = some "/override/ruby" :=
  (executable_path_lookup
    ⟨fun _ => some "/override/ruby", fun _ => some "/config/ruby", fun _ => .thrown⟩
    ⟨"file:///w", false⟩).1 rfl

/-- C9: `activateWorkspace` is idempotent: for a context whose key already
has a registered resolver it creates no resolver, replaces nothing and
triggers no re-resolution (no event); for an unregistered context it
registers exactly one resolver, resolves it and fires its single event. -/
theorem activateWorkspace_idempotent (env : ResolveEnv) (reg : Registry)
    (w : WorkspaceContext) :
    (∀ st, reg w.key = some st → activateWorkspace env reg w = (reg, [])) ∧
    (reg w.key = none →
      (activateWorkspace env reg w).1 w.key =
          some (getRubyDefinitionFromConfig env w) ∧
        (∀ k, k ≠ w.key → (activateWorkspace env reg w).1 k = reg k) ∧
        (activateWorkspace env reg w).2 =
          [⟨w, getRubyDefinitionFromConfig env w⟩]) := by
  constructor
  · intro st hst
    rw [activateWorkspace, hst]
  · intro hnone
    rw [activateWorkspace, hnone]
    refine ⟨by simp [updateRubyDefinition], fun k hk => by simp [if_neg hk], ?_⟩
    simp [updateRubyDefinition]

theorem activateWorkspace_idempotent_witness :
    activateWorkspace ⟨fun _ => none, fun _ => none, fun _ => .thrown⟩
        (fun _ => some (some RubyDefinition.error)) ⟨"file:///w", false⟩ =
      (fun _ => some (some RubyDefinition.error), []) :=
  (activateWorkspace_idempotent _ _ _).1 (some RubyDefinition.error) rfl

/-- Distinct constructible workspace contexts use distinct storage keys. -/
theorem getStorageKey_injective (A B : WorkspaceContext)
    (hA : A.Constructible) (hB : B.Constructible) (hne : A.key ≠ B.key) :
    A.getStorageKey ≠ B.getStorageKey := by
  unfold WorkspaceContext.getStorageKey
  cases hdA : A.isDefault <;> cases hdB : B.isDefault
  · show ("rubyPath:" ++ A.key) ≠ ("rubyPath:" ++ B.key)
    intro h
    have hdata := congrArg String.data h
    rw [String.data_append, String.data_append] at hdata
    exact hne (by ext1; exact List.append_cancel_left hdata)
  · show ("rubyPath:" ++ A.key) ≠ "rubyPath"
    intro h
    have hlen := congrArg String.length h
    rw [String.length_append] at hlen
    have h9 : ("rubyPath:" : String).length = 9 := rfl
    have h8 : ("rubyPath" : String).length = 8 := rfl
    omega
  · show "rubyPath" ≠ ("rubyPath:" ++ B.key)
    intro h
    have hlen := congrArg String.length h.symm
    rw [String.length_append] at hlen
    have h9 : ("rubyPath:" : String).length = 9 := rfl
    have h8 : ("rubyPath" : String).length = 8 := rfl
    omega
  · exact absurd ((hA hdA).trans (hB hdB).symm) hne

/-- C8: manual path selection for workspace A — storing the chosen path
under A's storage key and re-resolving A's resolver — leaves both B's stored
manual path and B's registered resolver state unchanged, for any distinct
constructible contexts A and B. -/
theorem selectRuby_isolated (env : ResolveEnv) (reg : Registry)
    (A B : WorkspaceContext) (newPath : String)
    (hA : A.Constructible) (hB : B.Constructible) (hne : A.key ≠ B.key) :
    (selectRubyApply env reg A newPath).1.workspaceState B.getStorageKey =
        env.workspaceState B.getStorageKey ∧
      (selectRubyApply env reg A newPath).2.1 B.key = reg B.key := by
  constructor
  · show (if B.getStorageKey = A.getStorageKey then some newPath
        else env.workspaceState B.getStorageKey) = env.workspaceState B.getStorageKey
    rw [if_neg (fun h => getStorageKey_injective A B hA hB hne h.symm)]
  · show (if B.key = A.key then _ else reg B.key) = reg B.key
    rw [if_neg (fun h => hne h.symm)]

/-- Ambient state fixture for the isolation witness: B has a stored manual
path, nothing else is set, every probe throws. -/
def sampleStoreB : ResolveEnv :=
  ⟨fun k => if k = "rubyPath:file:///b" then some "/b/ruby" else none,
    fun _ => none, fun _ => .thrown⟩

/-- Registry fixture for the isolation witness: only B is registered. -/
def sampleRegB : Registry :=
  fun k => if k = "file:///b" then some (some RubyDefinition.error) else none

theorem selectRuby_isolated_witness :
    (selectRubyApply sampleStoreB sampleRegB ⟨"file:///a", false⟩ "/new/ruby").1.workspaceState
        (WorkspaceContext.getStorageKey ⟨"file:///b", false⟩) = some "/b/ruby" ∧
      (selectRubyApply sampleStoreB sampleRegB ⟨"file:///a", false⟩ "/new/ruby").2.1
          "file:///b" = some (some RubyDefinition.error) := by
  obtain ⟨h1, h2⟩ := selectRuby_isolated sampleStoreB sampleRegB
    ⟨"file:///a", false⟩ ⟨"file:///b", false⟩ "/new/ruby"
    (fun h => absurd h (by decide)) (fun h => absurd h (by decide)) (by decide)
  exact ⟨h1.trans (by decide), h2.trans (by decide)⟩

/-- C10: every success definition the decoder produces has an
`availableJITs` list that never contains the ZJIT tag — although the type
enumerates it and the probe script emits a ZJIT field — and contains the
YJIT tag exactly when the third field of the decoded frame is a non-empty
string. -/
theorem decoder_jit_invariant (s v : Str) (jits : List JitType)
    (e : List (Str × Option Str)) (g : List Str)
    (h : parseActivationResult s = some (.environment v jits e g)) :
    JitType.ZJIT ∉ jits ∧
      ∃ content, extractFrame ACTIVATION_SEPARATOR s = some content ∧
        jits = (if ((splitOnL FIELD_SEPARATOR content)[2]?.getD []).isEmpty
          then [] else [JitType.YJIT]) := by
  rw [parseActivationResult] at h
  rcases hext : extractFrame ACTIVATION_SEPARATOR s with _ | content <;> rw [hext] at h
  · simp at h
  dsimp only at h
  rcases hfields : splitOnL FIELD_SEPARATOR content with _ | ⟨f0, rest0⟩
  · rw [hfields] at h
    simp [parseFields] at h
  rcases rest0 with _ | ⟨f1, rest⟩
  · rw [hfields] at h
    simp [parseFields] at h
  rw [hfields] at h
  simp only [parseFields, Option.some.injEq, RubyDefinition.environment.injEq] at h
  obtain ⟨hv, hj, he, hg⟩ := h
  constructor
  · rw [← hj]
    split <;> simp
  · refine ⟨content, rfl, ?_⟩
    rw [← hj, hfields]
    rcases rest with _ | ⟨y, t⟩ <;> simp

/-- A concrete well-formed frame with a non-empty YJIT field and no
environment entries. -/
def sampleYjitFrame : Str :=
  ACTIVATION_SEPARATOR ++
    ("3.3.0".data ++ FIELD_SEPARATOR ++ "/g".data ++ FIELD_SEPARATOR ++ "x".data) ++
    ACTIVATION_SEPARATOR

theorem decoder_jit_invariant_witness :
    JitType.ZJIT ∉ [JitType.YJIT] ∧
      ∃ content, extractFrame ACTIVATION_SEPARATOR sampleYjitFrame = some content ∧
        [JitType.YJIT] = (if ((splitOnL FIELD_SEPARATOR content)[2]?.getD []).isEmpty
          then [] else [JitType.YJIT]) :=
  decoder_jit_invariant sampleYjitFrame "3.3.0".data [JitType.YJIT] [] ["/g".data]
    (by decide)

/-- C2 counterexample: an input whose frame is perfectly delimited but whose
content contains no field separator makes the decoder throw (`gemPath` is
`undefined`, so `gemPath.split(",")` raises a `TypeError`) instead of never
raising; the thrown case is `none`, not a returned definition. -/
theorem decode_throws_on_fieldless_frame :
    parseActivationResult (ACTIVATION_SEPARATOR ++ ACTIVATION_SEPARATOR) = none := by
  decide

/-- C2 amended: for inputs whose inner frame is well-delimited, decoding
never raises provided the content contains at least one field separator
(at least two fields); it then yields a success definition whose version is
the first field, and a frame starting with the field separator (missing or
empty version field) yields the empty version string.  With zero field
separators in the content the decoder throws, and the resolver's caller
catches the exception. -/
theorem decode_total_on_framed_content (content : Str)
    (h : 2 ≤ (splitOnL FIELD_SEPARATOR content).length) :
    (∃ jits e g,
      parseActivationResult (ACTIVATION_SEPARATOR ++ content ++ ACTIVATION_SEPARATOR) =
        some (.environment ((splitOnL FIELD_SEPARATOR content).headD []) jits e g)) ∧
    (FIELD_SEPARATOR <+: content → (splitOnL FIELD_SEPARATOR content).headD [] = []) := by
  constructor
  · rw [parseActivationResult, extractFrame_encode _ _ activationSeparator_ne_nil]
    dsimp only
    rcases hfields : splitOnL FIELD_SEPARATOR content with _ | ⟨f0, rest0⟩
    · rw [hfields] at h
      simp at h
    rcases rest0 with _ | ⟨f1, rest⟩
    · rw [hfields] at h
      simp at h
    exact ⟨_, _, _, rfl⟩
  · intro hpre
    obtain ⟨rest, rfl⟩ := hpre
    rw [splitOnL_sep_append _ _ fieldSeparator_ne_nil]
    rfl

theorem decode_total_on_framed_content_witness :
    (∃ jits e g,
      parseActivationResult
          (ACTIVATION_SEPARATOR ++ FIELD_SEPARATOR ++ ACTIVATION_SEPARATOR) =
        some (.environment ((splitOnL FIELD_SEPARATOR FIELD_SEPARATOR).headD []) jits e g)) ∧
    (FIELD_SEPARATOR <+: FIELD_SEPARATOR →
      (splitOnL FIELD_SEPARATOR FIELD_SEPARATOR).headD [] = []) :=
  decode_total_on_framed_content FIELD_SEPARATOR (by decide)

/-- C5: an input without two non-overlapping occurrences of the frame
delimiter always decodes to the error variant (never a partial or successful
result); when two such occurrences exist the regexp matches, and the
captured frame content is everything strictly between the end of the first
occurrence and the start of the last occurrence of the delimiter (greedy
match). -/
theorem frame_match_characterization (s : Str) :
    (¬ TwoOcc ACTIVATION_SEPARATOR s →
      parseActivationResult s = some RubyDefinition.error) ∧
    (TwoOcc ACTIVATION_SEPARATOR s →
      ∃ p q, p ∈ occPositions ACTIVATION_SEPARATOR s ∧
        q ∈ occPositions ACTIVATION_SEPARATOR s ∧
        (∀ r ∈ occPositions ACTIVATION_SEPARATOR s, p ≤ r ∧ r ≤ q) ∧
        extractFrame ACTIVATION_SEPARATOR s =
          some ((s.drop (p + ACTIVATION_SEPARATOR.length)).take
            (q - (p + ACTIVATION_SEPARATOR.length)))) := by
  constructor
  · intro hno
    rw [parseActivationResult]
    rcases hext : extractFrame ACTIVATION_SEPARATOR s with _ | content
    · rfl
    · exact absurd ((twoOcc_iff_isSome _ _).mpr (by rw [hext]; rfl)) hno
  · intro htwo
    have hsome := (twoOcc_iff_isSome _ _).mp htwo
    rcases hh : (occPositions ACTIVATION_SEPARATOR s).head? with _ | p <;>
      rcases hg : (occPositions ACTIVATION_SEPARATOR s).getLast? with _ | q <;>
        rw [extractFrame, hh, hg] at hsome <;> dsimp only at hsome
    · simp at hsome
    · simp at hsome
    · simp at hsome
    by_cases hpq : p + ACTIVATION_SEPARATOR.length ≤ q
    · refine ⟨p, q, mem_of_head?_eq hh, mem_of_getLast?_eq hg, fun r hr =>
        ⟨head?_le_of_pairwise (occPositions_pairwise _ _) hh r hr,
          le_getLast?_of_pairwise (occPositions_pairwise _ _) hg r hr⟩, ?_⟩
      rw [extractFrame, hh, hg]
      dsimp only
      rw [if_pos hpq]
    · rw [if_neg hpq] at hsome
      simp at hsome

/-- A concrete input with diagnostic noise around a well-delimited frame. -/
def sampleFramedInput : Str :=
  "x".data ++ ACTIVATION_SEPARATOR ++ "y".data ++ ACTIVATION_SEPARATOR ++ "z".data

theorem frame_match_characterization_witness :
    ∃ p q, p ∈ occPositions ACTIVATION_SEPARATOR sampleFramedInput ∧
      q ∈ occPositions ACTIVATION_SEPARATOR sampleFramedInput ∧
      (∀ r ∈ occPositions ACTIVATION_SEPARATOR sampleFramedInput, p ≤ r ∧ r ≤ q) ∧
      extractFrame ACTIVATION_SEPARATOR sampleFramedInput =
        some ((sampleFramedInput.drop (p + ACTIVATION_SEPARATOR.length)).take
          (q - (p + ACTIVATION_SEPARATOR.length))) :=
  (frame_match_characterization sampleFramedInput).2
    ⟨"x".data, "y".data, "z".data, rfl⟩

/-- C7: decoding a frame whose environment entries carry the same variable
name more than once yields, for that name, the value of its last occurrence
(`Object.fromEntries` is last-write-wins), given that no field or entry
component contains a delimiter. -/
theorem env_last_write_wins (f0 f1 f2 : Str) (entries : List (Str × Str)) (k : Str)
    (vlast : Str × Str)
    (hf0 : ¬ FIELD_SEPARATOR <:+: f0)
    (hf1 : ¬ FIELD_SEPARATOR <:+: f1)
    (hf2 : ¬ FIELD_SEPARATOR <:+: f2)
    (hent : ∀ e ∈ entries, ¬ FIELD_SEPARATOR <:+: (e.1 ++ VALUE_SEPARATOR ++ e.2) ∧
      ¬ VALUE_SEPARATOR <:+: e.1 ∧ ¬ VALUE_SEPARATOR <:+: e.2)
    (_hdup : 2 ≤ (entries.filter (fun e => e.1 == k)).length)
    (hlast : (entries.filter (fun e => e.1 == k)).getLast? = some vlast) :
    ∃ jits g,
      parseActivationResult
          (ACTIVATION_SEPARATOR ++
            intercalateL FIELD_SEPARATOR
              ([f0, f1, f2] ++ entries.map (fun e => e.1 ++ VALUE_SEPARATOR ++ e.2)) ++
            ACTIVATION_SEPARATOR) =
        some (.environment f0 jits (entries.map (fun e => (e.1, some e.2))) g) ∧
      objLookup (entries.map (fun e => (e.1, some e.2))) k = some (some vlast.2) := by
  have hsplit : splitOnL FIELD_SEPARATOR
      (intercalateL FIELD_SEPARATOR
        ([f0, f1, f2] ++ entries.map (fun e => e.1 ++ VALUE_SEPARATOR ++ e.2))) =
      [f0, f1, f2] ++ entries.map (fun e => e.1 ++ VALUE_SEPARATOR ++ e.2) := by
    apply splitOnL_intercalateL _ _ fieldSeparator_borderFree fieldSeparator_ne_nil
      (by simp)
    intro p hp
    rcases List.mem_append.mp hp with hhd | hmem
    · simp only [List.mem_cons, List.mem_singleton] at hhd
      rcases hhd with rfl | rfl | rfl | hfalse
      · exact hf0
      · exact hf1
      · exact hf2
      · simp at hfalse
    · obtain ⟨e, he, rfl⟩ := List.mem_map.mp hmem
      exact (hent e he).1
  have henv : (entries.map (fun e => e.1 ++ VALUE_SEPARATOR ++ e.2)).map parseEnvEntry =
      entries.map (fun e => (e.1, some e.2)) := by
    rw [List.map_map]
    exact List.map_congr_left
      (fun e he => parseEnvEntry_encodes e.1 e.2 (hent e he).2.1 (hent e he).2.2)
  refine ⟨if f2.isEmpty then [] else [JitType.YJIT], splitOnL [','] f1, ?_, ?_⟩
  · rw [parseActivationResult, extractFrame_encode _ _ activationSeparator_ne_nil]
    dsimp only
    rw [hsplit]
    show some (RubyDefinition.environment f0 (if f2.isEmpty then [] else [JitType.YJIT])
      ((entries.map (fun e => e.1 ++ VALUE_SEPARATOR ++ e.2)).map parseEnvEntry)
      (splitOnL [','] f1)) = _
    rw [henv]
  · rw [objLookup, List.filter_map, List.getLast?_map]
    have hcomp : ((fun (e : Str × Option Str) => e.1 == k) ∘
        (fun (e : Str × Str) => (e.1, some e.2))) = fun e => e.1 == k := rfl
    rw [hcomp, hlast]
    rfl

theorem env_last_write_wins_witness :
    ∃ jits g,
      parseActivationResult
          (ACTIVATION_SEPARATOR ++
            intercalateL FIELD_SEPARATOR
              (["3.3.0".data, "/g".data, "x".data] ++
                [("K".data, "1".data), ("K".data, "2".data)].map
                  (fun e => e.1 ++ VALUE_SEPARATOR ++ e.2)) ++
            ACTIVATION_SEPARATOR) =
        some (.environment "3.3.0".data jits
          ([("K".data, "1".data), ("K".data, "2".data)].map (fun e => (e.1, some e.2))) g) ∧
      objLookup ([("K".data, "1".data), ("K".data, "2".data)].map (fun e => (e.1, some e.2)))
          "K".data = some (some "2".data) :=
  env_last_write_wins "3.3.0".data "/g".data "x".data
    [("K".data, "1".data), ("K".data, "2".data)] "K".data ("K".data, "2".data)
    (by decide) (by decide) (by decide) (by decide) (by decide) (by decide)

/-- C1: the round trip of the claim fails on the code: decoding the probe
script's own encoding of a Ruby with YJIT and ZJIT both disabled and
environment `{PATH: /usr/bin}` yields the YJIT tag anyway — the Ruby flag
string `"false"` is a non-empty, hence truthy, JavaScript string — and an
extra environment entry `("false", undefined)`, because the decoder consumes
three header fields while the probe emits four, shifting the ZJIT flag into
the environment entries. -/
theorem roundTrip_failure_at_disabled_jits :
    parseActivationResult (encodeActivation "3.3.0".data ["/a".data, "/b".data]
        false false [("PATH".data, "/usr/bin".data)]) =
      some (.environment "3.3.0".data [JitType.YJIT]
        [("false".data, none), ("PATH".data, some "/usr/bin".data)]
        ["/a".data, "/b".data]) := by
  decide

end RubyEnv
